import Mathlib

/-!
Verification development for the HackerRank judge adapter
(`src/onlinejudge/service/hackerrank.py`).

Strings are modelled as `List Char`.  Python functions that may raise an
uncaught exception are modelled with the `PyResult` type below.  The URL
parsing performed by the standard library (`urllib.parse.urlparse`) is
embedded faithfully in the fragment the adapter depends on: scheme
recognition, authority extraction (with the `ValueError` raised on an
authority containing `[` without `]` or vice versa), and the
fragment/query/params stripping that produces the `path` component.
-/

namespace HackerRank

/-- Outcome of a Python call: either an uncaught exception propagates
(`raised`) or a value is returned (`returned`). -/
inductive PyResult (α : Type) where
  | raised : PyResult α
  | returned : α → PyResult α
deriving DecidableEq, Repr

/-- Characters allowed in a URL scheme by `urllib.parse` (`scheme_chars`). -/
def isSchemeChar (c : Char) : Bool :=
  c.isAlpha || c.isDigit || c = '+' || c = '-' || c = '.'

/-- Characters matched by the slug character class `[0-9A-Za-z-]` of the
recognition patterns in `HackerRankProblem.from_url`. -/
def isSlugChar (c : Char) : Bool :=
  c.isAlpha || c.isDigit || c = '-'

/-- Characters that terminate the authority component in `urllib.parse`. -/
def isNetlocEnd (c : Char) : Bool :=
  c = '/' || c = '?' || c = '#'

/-- The components of `urllib.parse.urlparse` used by the adapter. -/
structure ParseResult where
  scheme : List Char
  netloc : List Char
  path : List Char
deriving DecidableEq, Repr

/-- Scheme extraction of `urllib.parse.urlsplit`: if the input begins with an
ASCII letter followed by scheme characters up to a `:`, the lower-cased head
is the scheme and the remainder follows the `:`; otherwise the scheme is
empty and the input is untouched. -/
def splitScheme (url : List Char) : List Char × List Char :=
  match url with
  | [] => ([], [])
  | c :: _ =>
    if c.isAlpha then
      match url.dropWhile isSchemeChar with
      | ':' :: r => ((url.takeWhile isSchemeChar).map Char.toLower, r)
      | _ => ([], url)
    else ([], url)

/-- Authority extraction of `urllib.parse.urlsplit`: when the remainder after
the scheme begins with `//`, the authority runs to the first `/`, `?` or `#`. -/
def splitNetloc (l : List Char) : List Char × List Char :=
  match l with
  | '/' :: '/' :: r =>
    (r.takeWhile (fun c => !isNetlocEnd c), r.dropWhile (fun c => !isNetlocEnd c))
  | _ => ([], l)

/-- The params split of `urllib.parse.urlparse` (`_splitparams`): when the
remaining path contains a `;`, drop everything from the first `;` of the last
slash-separated segment (or of the whole path when it has no `/`). -/
def splitParams (p : List Char) : List Char :=
  if ';' ∈ p then
    if '/' ∈ p then
      let seg := (p.reverse.takeWhile (fun c => c != '/')).reverse
      if ';' ∈ seg then
        p.take (p.length - seg.length) ++ seg.takeWhile (fun c => c != ';')
      else p
    else p.takeWhile (fun c => c != ';')
  else p

/-- The schemes for which `urllib.parse.urlparse` performs the params split
(`uses_params`). -/
def usesParams : List (List Char) :=
  ["", "ftp", "hdl", "prospero", "http", "imap", "https", "shttp", "rtsp",
   "rtspu", "sip", "sips", "mms", "sftp", "tel"].map String.data

/-- Path component produced by `urllib.parse.urlparse`: strip the fragment
(first `#`), then the query (first `?`), then — for schemes in `uses_params`
— the params. -/
def parsePath (scheme : List Char) (l : List Char) : List Char :=
  if scheme ∈ usesParams then
    splitParams ((l.takeWhile (fun c => c != '#')).takeWhile (fun c => c != '?'))
  else (l.takeWhile (fun c => c != '#')).takeWhile (fun c => c != '?')

/-- Embedding of `urllib.parse.urlparse` restricted to the fields the adapter
reads.  Raises `ValueError` (modelled by `PyResult.raised`) when the authority
contains `[` without `]` or `]` without `[`, as the CPython version of the
source's era does.  (Later CPython versions additionally strip surrounding
whitespace and reject more bracketed authorities; none of that changes which
URLs the adapter accepts, and `ValueError` on a lone bracket is raised by
every version.) -/
def urlparse (s : List Char) : PyResult ParseResult :=
  match splitScheme s with
  | (scheme, rest) =>
    match splitNetloc rest with
    | (netloc, rest2) =>
      if ('[' ∈ netloc ∧ ']' ∉ netloc) ∨ (']' ∈ netloc ∧ '[' ∉ netloc) then .raised
      else .returned ⟨scheme, netloc, parsePath scheme rest2⟩

/-- Split a path at every `/`, keeping empty components, as Python's
`path.split('/')` does. -/
def splitOnSlash : List Char → List (List Char)
  | [] => [[]]
  | c :: rest =>
    let r := splitOnSlash rest
    if c = '/' then [] :: r
    else
      match r with
      | [] => [[c]]
      | h :: t => (c :: h) :: t

/-- Component normalisation of POSIX path normalisation: drop empty and `.`
components, let `..` cancel a preceding component (except at the root of an
absolute path, or when stacked on leading `..` of a relative path).  The
accumulator holds the kept components in reverse. -/
def normComps (isAbs : Bool) : List (List Char) → List (List Char) → List (List Char)
  | acc, [] => acc.reverse
  | acc, comp :: rest =>
    if comp = [] ∨ comp = ['.'] then normComps isAbs acc rest
    else if comp = ['.', '.'] then
      match acc with
      | [] => normComps isAbs (if isAbs then [] else [comp]) rest
      | prev :: acctl =>
        if prev = ['.', '.'] then normComps isAbs (comp :: prev :: acctl) rest
        else normComps isAbs acctl rest
    else normComps isAbs (comp :: acc) rest

/-- Join components with `/`, as Python's `'/'.join`. -/
def joinSlash : List (List Char) → List Char
  | [] => []
  | [c] => c
  | c :: cs => c ++ '/' :: joinSlash cs

/-- Modelled from the spec: `utils.normpath` is not under `src/`; §4.1 says the
path "must first be normalized (resolve `.`/`..`, collapse slashes) before
matching".  This is POSIX path normalisation with duplicate slashes (including
leading ones) collapsed. -/
def normpath (p : List Char) : List Char :=
  if p = [] then ['.']
  else if p.head? = some '/' then
    '/' :: joinSlash (normComps true [] (splitOnSlash p))
  else
    match joinSlash (normComps false [] (splitOnSlash p)) with
    | [] => ['.']
    | j => j

/-- Strip a literal pattern from the front of a list; `some` returns the
remainder after the pattern. -/
def stripLit : List Char → List Char → Option (List Char)
  | [], l => some l
  | _ :: _, [] => none
  | p :: ps, c :: cs => if c = p then stripLit ps cs else none

/-- Matcher for the anchored pattern
`/contests/([0-9A-Za-z-]+)/challenges/([0-9A-Za-z-]+)` of
`HackerRankProblem.from_url`.  Greedy runs of slug characters coincide with
the regex semantics because slug characters exclude `/`.  Python's `$`
(without `re.MULTILINE`) matches at the end of the string or just before a
newline that ends the string, so the remainder after the last slug must be
empty or a single trailing newline. -/
def matchContestsChallenges (path : List Char) : Option (List Char × List Char) :=
  match stripLit "/contests/".data path with
  | none => none
  | some r1 =>
    let a := r1.takeWhile isSlugChar
    match stripLit "/challenges/".data (r1.dropWhile isSlugChar) with
    | none => none
    | some r3 =>
      let b := r3.takeWhile isSlugChar
      if a ≠ [] ∧ b ≠ [] ∧
          (r3.dropWhile isSlugChar = [] ∨ r3.dropWhile isSlugChar = ['\n']) then
        some (a, b)
      else none

/-- Matcher for the anchored pattern `/challenges/([0-9A-Za-z-]+)` of
`HackerRankProblem.from_url`, with the same `$` semantics: the remainder
after the slug is empty or a single trailing newline. -/
def matchChallenges (path : List Char) : Option (List Char) :=
  match stripLit "/challenges/".data path with
  | none => none
  | some r =>
    let b := r.takeWhile isSlugChar
    if b ≠ [] ∧ (r.dropWhile isSlugChar = [] ∨ r.dropWhile isSlugChar = ['\n']) then
      some b
    else none

/-- A problem of the adapter: the immutable `(contest_slug, challenge_slug)`
pair of `HackerRankProblem.__init__`. -/
structure HackerRankProblem where
  contest_slug : List Char
  challenge_slug : List Char
deriving DecidableEq, Repr

/-- `HackerRankProblem.get_url`: the canonical URL, omitting the
`/contests/master/` segment for the `master` contest. -/
def HackerRankProblem.get_url (p : HackerRankProblem) : List Char :=
  if p.contest_slug = "master".data then
    "https://www.hackerrank.com/challenges/".data ++ p.challenge_slug
  else
    "https://www.hackerrank.com/contests/".data ++ p.contest_slug ++
      "/challenges/".data ++ p.challenge_slug

/-- The scheme test of both `from_url` classmethods:
`result.scheme in ('', 'http', 'https')`. -/
def schemeOk (s : List Char) : Prop :=
  s = [] ∨ s = "http".data ∨ s = "https".data

instance (s : List Char) : Decidable (schemeOk s) := by
  unfold schemeOk; infer_instance

/-- The host test of both `from_url` classmethods:
`result.netloc in ('hackerrank.com', 'www.hackerrank.com')`. -/
def netlocOk (s : List Char) : Prop :=
  s = "hackerrank.com".data ∨ s = "www.hackerrank.com".data

instance (s : List Char) : Decidable (netlocOk s) := by
  unfold netlocOk; infer_instance

/-- `HackerRankProblem.from_url`: parse the URL, check scheme and host, then
try the two anchored patterns on the normalised path, the contests form first;
the bare `/challenges/...` form yields contest slug `master`.  A `ValueError`
from `urlparse` propagates. -/
def problemFromUrl (s : List Char) : PyResult (Option HackerRankProblem) :=
  match urlparse s with
  | .raised => .raised
  | .returned r =>
    if schemeOk r.scheme ∧ netlocOk r.netloc then
      match matchContestsChallenges (normpath r.path) with
      | some (a, b) => .returned (some ⟨a, b⟩)
      | none =>
        match matchChallenges (normpath r.path) with
        | some b => .returned (some ⟨"master".data, b⟩)
        | none => .returned none
    else .returned none

/-- `HackerRankService.from_url`: parse the URL and check only scheme and
host; the singleton service instance is modelled by `()`.  A `ValueError`
from `urlparse` propagates. -/
def serviceFromUrl (s : List Char) : PyResult (Option Unit) :=
  match urlparse s with
  | .raised => .raised
  | .returned r =>
    if schemeOk r.scheme ∧ netlocOk r.netloc then .returned (some ())
    else .returned none

/-- A nonempty string of slug characters: exactly the strings matched by one
capture group `([0-9A-Za-z-]+)` of the recognition patterns. -/
def IsSlug (l : List Char) : Prop :=
  l ≠ [] ∧ ∀ c ∈ l, isSlugChar c = true

instance (l : List Char) : Decidable (IsSlug l) := by
  unfold IsSlug; infer_instance

/-- Modelled from the spec: `onlinejudge.type.LabeledString` is not under
`src/`; §3 describes test cases as labeled text blobs, so this is a
name/data pair. -/
structure LabeledString where
  name : List Char
  data : List Char
deriving DecidableEq, Repr

/-- Modelled from the spec: `onlinejudge.type.TestCase` is not under `src/`;
§3 describes it as an (input, expected-output) pair of labeled text blobs. -/
structure TestCase where
  input : LabeledString
  output : LabeledString
deriving DecidableEq, Repr

/-- Modelled from the spec: `utils.textfile` is not under `src/`; §4.3 step 5
zips the returned `stdin`/`expected_output` strings directly into `TestCase`
records and names no transformation, so it is the identity on the text. -/
def textfile (s : List Char) : List Char := s

/-- The label `'Testcase {i} Input'` of `download_with_running_code`. -/
def testcaseInputName (i : Nat) : List Char :=
  "Testcase ".data ++ (Nat.repr i).data ++ " Input".data

/-- The label `'Testcase {i} Expected Output'` of
`download_with_running_code`. -/
def testcaseOutputName (i : Nat) : List Char :=
  "Testcase ".data ++ (Nat.repr i).data ++ " Expected Output".data

/-- The HTTP requests `download_with_running_code` can issue, in order: the
problem-page GET (for the CSRF token), the compile POST, and the poll GET. -/
inductive HttpReq where
  | getProblemPage : HttpReq
  | postCompile : HttpReq
  | getPoll : HttpReq
deriving DecidableEq, Repr

/-- The parsed JSON of the compile POST: its `status` flag and `model.id`
(read only when `status` is true). -/
structure CompileResponse where
  status : Bool
  id : Nat
deriving DecidableEq, Repr

/-- The parsed JSON of the poll GET: its `status` flag and the
`model.stdin` / `model.expected_output` arrays. -/
structure PollResponse where
  status : Bool
  stdin : List (List Char)
  expected_output : List (List Char)
deriving DecidableEq, Repr

/-- A mocked transport for `download_with_running_code`: the compile POST's
response and the poll GET's response. -/
structure RunCodeTransport where
  compile : CompileResponse
  poll : PollResponse
deriving DecidableEq, Repr

/-- `HackerRankProblem.download_with_running_code` over a mocked transport.
Returns the produced test cases together with the trace of issued requests:
GET the problem page, POST the compile request; stop with `[]` if its
`status` is false, otherwise sleep and GET the poll endpoint; stop with `[]`
if its `status` is false, otherwise zip `stdin` with `expected_output`
into indexed, labeled test cases. -/
def download_with_running_code (t : RunCodeTransport) :
    List TestCase × List HttpReq :=
  if t.compile.status = false then
    ([], [.getProblemPage, .postCompile])
  else if t.poll.status = false then
    ([], [.getProblemPage, .postCompile, .getPoll])
  else
    (((t.poll.stdin.zip t.poll.expected_output).enum).map
        (fun p => ⟨⟨testcaseInputName p.1, textfile p.2.1⟩,
                   ⟨testcaseOutputName p.1, textfile p.2.2⟩⟩),
     [.getProblemPage, .postCompile, .getPoll])

/-- Does `pat` occur as a contiguous substring, as Python's `pat in s`? -/
def occursIn (pat : List Char) : List Char → Bool
  | [] => pat.isEmpty
  | c :: rest => pat.isPrefixOf (c :: rest) || occursIn pat rest

/-- The login URL of `HackerRankService.login`. -/
def authLoginUrl : List Char := "https://www.hackerrank.com/auth/login".data

/-- A mocked transport for `HackerRankService.login`: the final URL of the
initial GET (after redirects), whether the form POST returns an HTTP success
status (`raise_for_status`), and the final URL after the form POST. -/
structure LoginTransport where
  getResultUrl : List Char
  postOk : Bool
  postResultUrl : List Char
deriving DecidableEq, Repr

/-- `HackerRankService.login` over a mocked transport.  Returns the result
(`raised` models the `raise_for_status` exception) together with the number
of invocations of the credential callback.  If the initial GET was redirected
away from the login URL the method returns `True` at once; otherwise it
invokes the callback once, posts the form, and succeeds exactly when the
post-submit URL does not contain `/auth`. -/
def login (t : LoginTransport) : PyResult Bool × Nat :=
  if t.getResultUrl ≠ authLoginUrl then (.returned true, 0)
  else if t.postOk = false then (.raised, 1)
  else if occursIn "/auth".data t.postResultUrl then (.returned false, 1)
  else (.returned true, 1)

/-- The parsed JSON of the submission POST of `HackerRankProblem.submit`:
its `status` flag and `model.id` (read only when `status` is true). -/
structure SubmitResponse where
  status : Bool
  id : Nat
deriving DecidableEq, Repr

/-- The `CompatibilitySubmission` handle returned by
`HackerRankProblem.submit`: the result URL and the problem it points to. -/
structure CompatibilitySubmission where
  url : List Char
  problem : HackerRankProblem
deriving DecidableEq, Repr

/-- Python's `str.rstrip('/')`. -/
def rstripSlash (l : List Char) : List Char :=
  (l.reverse.dropWhile (fun c => c == '/')).reverse

/-- `HackerRankProblem.submit` over a mocked transport (the page GET and the
CSRF extraction are glue; the submission POST's parsed JSON is `r`).  When
`status` is false it raises `SubmissionError` (modelled by `raised`);
otherwise it returns a submission handle whose URL is the canonical problem
URL (with trailing slashes stripped) followed by
`/submissions/code/<model.id>`. -/
def submit (p : HackerRankProblem) (r : SubmitResponse) :
    PyResult CompatibilitySubmission :=
  if r.status = false then .raised
  else
    .returned ⟨rstripSlash p.get_url ++
        ("/submissions/code/".data ++ (Nat.repr r.id).data), p⟩

/-! Helper lemmas about the list primitives used by the embedding. -/

theorem takeWhile_of_all {p : Char → Bool} {l : List Char}
    (h : ∀ c ∈ l, p c = true) : l.takeWhile p = l := by
  induction l with
  | nil => rfl
  | cons c cs ih =>
    rw [List.takeWhile_cons_of_pos (h c (List.mem_cons_self c cs))]
    rw [ih (fun x hx => h x (List.mem_cons_of_mem _ hx))]

theorem dropWhile_of_all {p : Char → Bool} {l : List Char}
    (h : ∀ c ∈ l, p c = true) : l.dropWhile p = [] := by
  induction l with
  | nil => rfl
  | cons c cs ih =>
    rw [List.dropWhile_cons_of_pos (h c (List.mem_cons_self c cs))]
    exact ih (fun x hx => h x (List.mem_cons_of_mem _ hx))

theorem stripLit_self (pat r : List Char) : stripLit pat (pat ++ r) = some r := by
  induction pat with
  | nil => rfl
  | cons c cs ih => simpa [stripLit] using ih

theorem stripLit_eq_some {pat l r : List Char}
    (h : stripLit pat l = some r) : l = pat ++ r := by
  induction pat generalizing l with
  | nil => simpa [stripLit] using h
  | cons c cs ih =>
    cases l with
    | nil => exact absurd h (by simp [stripLit])
    | cons d ds =>
      by_cases hd : d = c
      · subst hd
        simp only [stripLit, if_pos rfl] at h
        simpa using ih h
      · simp [stripLit, hd] at h

theorem slugChar_ne {c : Char} (h : isSlugChar c = true) :
    c ≠ '/' ∧ c ≠ '#' ∧ c ≠ '?' ∧ c ≠ ';' ∧ c ≠ '.' := by
  refine ⟨?_, ?_, ?_, ?_, ?_⟩ <;> rintro rfl <;> exact absurd h (by decide)

theorem slug_no_slash {l : List Char} (h : ∀ c ∈ l, isSlugChar c = true) :
    '/' ∉ l := fun hm => ((slugChar_ne (h _ hm)).1 rfl).elim

/-! Characterization of the two anchored recognition patterns. -/

theorem matchCC_eq_some {path a b : List Char} :
    matchContestsChallenges path = some (a, b) ↔
      IsSlug a ∧ IsSlug b ∧
        (path = "/contests/".data ++ (a ++ ("/challenges/".data ++ b)) ∨
         path = "/contests/".data ++ (a ++ ("/challenges/".data ++ (b ++ ['\n'])))) := by
  constructor
  · intro h
    unfold matchContestsChallenges at h
    cases e1 : stripLit "/contests/".data path with
    | none => rw [e1] at h; cases h
    | some r1 =>
      rw [e1] at h
      cases e2 : stripLit "/challenges/".data (r1.dropWhile isSlugChar) with
      | none => simp only [e2] at h; cases h
      | some r3 =>
        simp only [e2] at h
        by_cases hcond : r1.takeWhile isSlugChar ≠ [] ∧ r3.takeWhile isSlugChar ≠ [] ∧
            (r3.dropWhile isSlugChar = [] ∨ r3.dropWhile isSlugChar = ['\n'])
        · rw [if_pos hcond, Option.some.injEq, Prod.mk.injEq] at h
          obtain ⟨rfl, rfl⟩ := h
          obtain ⟨ha, hb, hdrop⟩ := hcond
          refine ⟨⟨ha, fun c hc => List.mem_takeWhile_imp hc⟩,
                  ⟨hb, fun c hc => List.mem_takeWhile_imp hc⟩, ?_⟩
          have hp1 : path = "/contests/".data ++ r1 := stripLit_eq_some e1
          have hp2 : r1.dropWhile isSlugChar = "/challenges/".data ++ r3 :=
            stripLit_eq_some e2
          rcases hdrop with hdrop | hdrop
          · refine Or.inl ?_
            have hr3 : r3.takeWhile isSlugChar = r3 := by
              have hh := List.takeWhile_append_dropWhile (p := isSlugChar) (l := r3)
              rw [hdrop, List.append_nil] at hh
              exact hh
            rw [hr3, ← hp2, List.takeWhile_append_dropWhile]
            exact hp1
          · refine Or.inr ?_
            have hr3 : r3.takeWhile isSlugChar ++ ['\n'] = r3 := by
              have hh := List.takeWhile_append_dropWhile (p := isSlugChar) (l := r3)
              rw [hdrop] at hh
              exact hh
            rw [hr3, ← hp2, List.takeWhile_append_dropWhile]
            exact hp1
        · rw [if_neg hcond] at h; cases h
  · rintro ⟨ha, hb, hpath | hpath⟩ <;> subst hpath
    · have h2 : (a ++ ("/challenges/".data ++ b)).takeWhile isSlugChar = a := by
        rw [List.takeWhile_append_of_pos ha.2]
        have e : ("/challenges/".data ++ b).takeWhile isSlugChar = [] :=
          List.takeWhile_cons_of_neg (by decide)
        rw [e, List.append_nil]
      have h3 : (a ++ ("/challenges/".data ++ b)).dropWhile isSlugChar =
          "/challenges/".data ++ b := by
        rw [List.dropWhile_append_of_pos ha.2]
        exact List.dropWhile_cons_of_neg (by decide)
      have h5 : b.takeWhile isSlugChar = b := takeWhile_of_all hb.2
      have h6 : b.dropWhile isSlugChar = [] := dropWhile_of_all hb.2
      unfold matchContestsChallenges
      rw [stripLit_self]
      simp only [h2, h3, stripLit_self, h5, h6]
      simp [ha.1, hb.1]
    · have h2 : (a ++ ("/challenges/".data ++ (b ++ ['\n']))).takeWhile isSlugChar = a := by
        rw [List.takeWhile_append_of_pos ha.2]
        have e : ("/challenges/".data ++ (b ++ ['\n'])).takeWhile isSlugChar = [] :=
          List.takeWhile_cons_of_neg (by decide)
        rw [e, List.append_nil]
      have h3 : (a ++ ("/challenges/".data ++ (b ++ ['\n']))).dropWhile isSlugChar =
          "/challenges/".data ++ (b ++ ['\n']) := by
        rw [List.dropWhile_append_of_pos ha.2]
        exact List.dropWhile_cons_of_neg (by decide)
      have h5 : (b ++ ['\n']).takeWhile isSlugChar = b := by
        rw [List.takeWhile_append_of_pos hb.2,
            List.takeWhile_cons_of_neg (by decide), List.append_nil]
      have h6 : (b ++ ['\n']).dropWhile isSlugChar = ['\n'] := by
        rw [List.dropWhile_append_of_pos hb.2, List.dropWhile_cons_of_neg (by decide)]
      unfold matchContestsChallenges
      rw [stripLit_self]
      simp only [h2, h3, stripLit_self, h5, h6]
      simp [ha.1, hb.1]

theorem matchC_eq_some {path b : List Char} :
    matchChallenges path = some b ↔
      IsSlug b ∧
        (path = "/challenges/".data ++ b ∨
         path = "/challenges/".data ++ (b ++ ['\n'])) := by
  constructor
  · intro h
    unfold matchChallenges at h
    cases e1 : stripLit "/challenges/".data path with
    | none => rw [e1] at h; cases h
    | some r =>
      simp only [e1] at h
      by_cases hcond : r.takeWhile isSlugChar ≠ [] ∧
          (r.dropWhile isSlugChar = [] ∨ r.dropWhile isSlugChar = ['\n'])
      · rw [if_pos hcond, Option.some.injEq] at h
        subst h
        obtain ⟨hb, hdrop⟩ := hcond
        refine ⟨⟨hb, fun c hc => List.mem_takeWhile_imp hc⟩, ?_⟩
        have hp : path = "/challenges/".data ++ r := stripLit_eq_some e1
        rcases hdrop with hdrop | hdrop
        · refine Or.inl ?_
          have hr : r.takeWhile isSlugChar = r := by
            have hh := List.takeWhile_append_dropWhile (p := isSlugChar) (l := r)
            rw [hdrop, List.append_nil] at hh
            exact hh
          rw [hr]
          exact hp
        · refine Or.inr ?_
          have hr : r.takeWhile isSlugChar ++ ['\n'] = r := by
            have hh := List.takeWhile_append_dropWhile (p := isSlugChar) (l := r)
            rw [hdrop] at hh
            exact hh
          rw [hr]
          exact hp
      · rw [if_neg hcond] at h; cases h
  · rintro ⟨hb, hpath | hpath⟩ <;> subst hpath
    · have h5 : b.takeWhile isSlugChar = b := takeWhile_of_all hb.2
      have h6 : b.dropWhile isSlugChar = [] := dropWhile_of_all hb.2
      unfold matchChallenges
      rw [stripLit_self]
      simp only [h5, h6]
      simp [hb.1]
    · have h5 : (b ++ ['\n']).takeWhile isSlugChar = b := by
        rw [List.takeWhile_append_of_pos hb.2,
            List.takeWhile_cons_of_neg (by decide), List.append_nil]
      have h6 : (b ++ ['\n']).dropWhile isSlugChar = ['\n'] := by
        rw [List.dropWhile_append_of_pos hb.2, List.dropWhile_cons_of_neg (by decide)]
      unfold matchChallenges
      rw [stripLit_self]
      simp only [h5, h6]
      simp [hb.1]

theorem contests_ne_challenges {x y : List Char} :
    "/contests/".data ++ x ≠ "/challenges/".data ++ y := by
  intro h
  have h2 : ("/contests/".data ++ x).get? 2 = ("/challenges/".data ++ y).get? 2 := by
    rw [h]
  have e1 : ("/contests/".data ++ x).get? 2 = some 'o' := rfl
  have e2 : ("/challenges/".data ++ y).get? 2 = some 'h' := rfl
  rw [e1, e2] at h2
  simp at h2

/-! Path normalisation on the recognised shapes. -/

theorem splitOnSlash_no_slash {l : List Char} (h : '/' ∉ l) :
    splitOnSlash l = [l] := by
  induction l with
  | nil => rfl
  | cons c cs ih =>
    have hc : ¬(c = '/') := fun e => h (e ▸ List.mem_cons_self c cs)
    have hcs : '/' ∉ cs := fun m => h (List.mem_cons_of_mem _ m)
    simp only [splitOnSlash, ih hcs, if_neg hc]

theorem splitOnSlash_append {l₁ l₂ : List Char} (h : '/' ∉ l₁) :
    splitOnSlash (l₁ ++ '/' :: l₂) = l₁ :: splitOnSlash l₂ := by
  induction l₁ with
  | nil => simp [splitOnSlash]
  | cons c cs ih =>
    have hc : ¬(c = '/') := fun e => h (e ▸ List.mem_cons_self c cs)
    have hcs : '/' ∉ cs := fun m => h (List.mem_cons_of_mem _ m)
    simp only [List.cons_append, splitOnSlash, List.append_eq, ih hcs, if_neg hc]

theorem normComps_nil_comp (isAbs : Bool) (acc rest : List (List Char)) :
    normComps isAbs acc ([] :: rest) = normComps isAbs acc rest := by
  simp [normComps]

theorem normComps_clean {l : List (List Char)} (isAbs : Bool) (acc : List (List Char))
    (h : ∀ c ∈ l, ¬(c = [] ∨ c = ['.']) ∧ c ≠ ['.', '.']) :
    normComps isAbs acc l = acc.reverse ++ l := by
  induction l generalizing acc with
  | nil => simp [normComps]
  | cons c cs ih =>
    have hc := h c (List.mem_cons_self ..)
    simp only [normComps, if_neg hc.1, if_neg hc.2]
    rw [ih (c :: acc) (fun x hx => h x (List.mem_cons_of_mem _ hx))]
    simp

theorem slug_clean {l : List Char} (hl : IsSlug l) :
    ¬(l = [] ∨ l = ['.']) ∧ l ≠ ['.', '.'] := by
  refine ⟨?_, ?_⟩
  · rintro (rfl | rfl)
    · exact hl.1 rfl
    · exact absurd (hl.2 '.' (by simp)) (by decide)
  · rintro rfl
    exact absurd (hl.2 '.' (by simp)) (by decide)

theorem normpath_challenges {b : List Char} (hb : IsSlug b) :
    normpath ("/challenges/".data ++ b) = "/challenges/".data ++ b := by
  have hsplit : splitOnSlash ("/challenges/".data ++ b) =
      [[], "challenges".data, b] := by
    have e : "/challenges/".data ++ b =
        ([] : List Char) ++ '/' :: ("challenges".data ++ '/' :: b) := rfl
    rw [e, splitOnSlash_append (by simp), splitOnSlash_append (by decide),
        splitOnSlash_no_slash (slug_no_slash hb.2)]
  have hne : "/challenges/".data ++ b ≠ [] := by
    show '/' :: ("challenges/".data ++ b) ≠ []
    exact List.cons_ne_nil _ _
  have habs : ("/challenges/".data ++ b).head? = some '/' := rfl
  have hcomps : normComps true [] [[], "challenges".data, b] =
      ["challenges".data, b] := by
    rw [normComps_nil_comp, normComps_clean]
    · rfl
    · intro c hc
      rcases List.mem_cons.mp hc with rfl | hc2
      · exact ⟨by decide, by decide⟩
      · rcases List.mem_cons.mp hc2 with rfl | hc3
        · exact slug_clean hb
        · cases hc3
  unfold normpath
  rw [if_neg hne, if_pos habs, hsplit, hcomps]
  rfl

theorem normpath_contests {a b : List Char} (ha : IsSlug a) (hb : IsSlug b) :
    normpath ("/contests/".data ++ (a ++ ("/challenges/".data ++ b))) =
      "/contests/".data ++ (a ++ ("/challenges/".data ++ b)) := by
  have e : "/contests/".data ++ (a ++ ("/challenges/".data ++ b)) =
      ([] : List Char) ++
        '/' :: ("contests".data ++ '/' :: (a ++ '/' :: ("challenges".data ++ '/' :: b))) := rfl
  have hsplit : splitOnSlash ("/contests/".data ++ (a ++ ("/challenges/".data ++ b))) =
      [[], "contests".data, a, "challenges".data, b] := by
    rw [e, splitOnSlash_append (by simp), splitOnSlash_append (by decide),
        splitOnSlash_append (slug_no_slash ha.2), splitOnSlash_append (by decide),
        splitOnSlash_no_slash (slug_no_slash hb.2)]
  have hne : "/contests/".data ++ (a ++ ("/challenges/".data ++ b)) ≠ [] := by
    show '/' :: ("contests/".data ++ (a ++ ("/challenges/".data ++ b))) ≠ []
    exact List.cons_ne_nil _ _
  have habs : ("/contests/".data ++ (a ++ ("/challenges/".data ++ b))).head? = some '/' := rfl
  have hcomps : normComps true [] [[], "contests".data, a, "challenges".data, b] =
      ["contests".data, a, "challenges".data, b] := by
    rw [normComps_nil_comp, normComps_clean]
    · rfl
    · intro c hc
      rcases List.mem_cons.mp hc with rfl | hc2
      · exact ⟨by decide, by decide⟩
      · rcases List.mem_cons.mp hc2 with rfl | hc3
        · exact slug_clean ha
        · rcases List.mem_cons.mp hc3 with rfl | hc4
          · exact ⟨by decide, by decide⟩
          · rcases List.mem_cons.mp hc4 with rfl | hc5
            · exact slug_clean hb
            · cases hc5
  unfold normpath
  rw [if_neg hne, if_pos habs, hsplit, hcomps]
  rfl

/-! Parsing the canonical URLs built by `get_url`. -/

theorem urlparse_hackerrank {rest : List Char}
    (h : ∀ c ∈ rest, isSlugChar c = true ∨ c = '/') :
    urlparse ("https://www.hackerrank.com/".data ++ rest) =
      .returned ⟨"https".data, "www.hackerrank.com".data, '/' :: rest⟩ := by
  have h1 : splitScheme ("https://www.hackerrank.com/".data ++ rest) =
      ("https".data, "//www.hackerrank.com/".data ++ rest) := rfl
  have h2 : splitNetloc ("//www.hackerrank.com/".data ++ rest) =
      ("www.hackerrank.com".data, '/' :: rest) := rfl
  have hall : ∀ c ∈ ('/' :: rest), c ≠ '#' ∧ c ≠ '?' ∧ c ≠ ';' := by
    intro c hc
    rcases List.mem_cons.mp hc with rfl | hc2
    · exact ⟨by decide, by decide, by decide⟩
    · rcases h c hc2 with hs | rfl
      · have := slugChar_ne hs
        exact ⟨this.2.1, this.2.2.1, this.2.2.2.1⟩
      · exact ⟨by decide, by decide, by decide⟩
  have ht1 : ('/' :: rest).takeWhile (fun c => c != '#') = '/' :: rest :=
    takeWhile_of_all (fun c hc => bne_iff_ne.mpr (hall c hc).1)
  have ht2 : ('/' :: rest).takeWhile (fun c => c != '?') = '/' :: rest :=
    takeWhile_of_all (fun c hc => bne_iff_ne.mpr (hall c hc).2.1)
  have hsemi : ';' ∉ ('/' :: rest) := fun hm => ((hall ';' hm).2.2 rfl).elim
  have hparse : parsePath "https".data ('/' :: rest) = '/' :: rest := by
    unfold parsePath
    rw [if_pos (by decide), ht1, ht2]
    unfold splitParams
    rw [if_neg hsemi]
  simp only [urlparse, h1, h2]
  rw [if_neg (by decide), hparse]

/-! Characterization of the recognition function. -/

theorem problemFromUrl_char {s : List Char} {p : HackerRankProblem} :
    problemFromUrl s = .returned (some p) ↔
      ∃ r : ParseResult, urlparse s = .returned r ∧
        schemeOk r.scheme ∧ netlocOk r.netloc ∧
        ((IsSlug p.contest_slug ∧ IsSlug p.challenge_slug ∧
            (normpath r.path = "/contests/".data ++
                (p.contest_slug ++ ("/challenges/".data ++ p.challenge_slug)) ∨
              normpath r.path = "/contests/".data ++
                (p.contest_slug ++ ("/challenges/".data ++
                  (p.challenge_slug ++ ['\n']))))) ∨
          (p.contest_slug = "master".data ∧ IsSlug p.challenge_slug ∧
            (normpath r.path = "/challenges/".data ++ p.challenge_slug ∨
              normpath r.path =
                "/challenges/".data ++ (p.challenge_slug ++ ['\n'])))) := by
  unfold problemFromUrl
  cases hu : urlparse s with
  | raised =>
    constructor
    · intro h; cases h
    · rintro ⟨r, hr, -⟩; cases hr
  | returned r =>
    simp only []
    by_cases hok : schemeOk r.scheme ∧ netlocOk r.netloc
    · rw [if_pos hok]
      cases e1 : matchContestsChallenges (normpath r.path) with
      | some ab =>
        obtain ⟨a, b⟩ := ab
        obtain ⟨ha, hb, hpath⟩ := matchCC_eq_some.mp e1
        constructor
        · intro h
          rw [PyResult.returned.injEq, Option.some.injEq] at h
          subst h
          exact ⟨r, rfl, hok.1, hok.2, Or.inl ⟨ha, hb, hpath⟩⟩
        · rintro ⟨r', hr', hs', hn', disj⟩
          injection hr' with hrr
          subst hrr
          rcases disj with ⟨hc1, hc2, hpath'⟩ | ⟨hm, hchal, hpath'⟩
          · have hcc := matchCC_eq_some.mpr ⟨hc1, hc2, hpath'⟩
            rw [e1, Option.some.injEq, Prod.mk.injEq] at hcc
            rw [hcc.1, hcc.2]
          · rcases hpath with hp | hp <;> rcases hpath' with hp' | hp' <;>
              exact absurd (hp.symm.trans hp') contests_ne_challenges
      | none =>
        cases e2 : matchChallenges (normpath r.path) with
        | some b =>
          obtain ⟨hb, hpath⟩ := matchC_eq_some.mp e2
          constructor
          · intro h
            rw [PyResult.returned.injEq, Option.some.injEq] at h
            subst h
            exact ⟨r, rfl, hok.1, hok.2, Or.inr ⟨rfl, hb, hpath⟩⟩
          · rintro ⟨r', hr', hs', hn', disj⟩
            injection hr' with hrr
            subst hrr
            rcases disj with ⟨hc1, hc2, hpath'⟩ | ⟨hm, hchal, hpath'⟩
            · have hcc := matchCC_eq_some.mpr ⟨hc1, hc2, hpath'⟩
              rw [e1] at hcc
              cases hcc
            · have hch := matchC_eq_some.mpr ⟨hchal, hpath'⟩
              rw [e2, Option.some.injEq] at hch
              rw [hch, ← hm]
        | none =>
          constructor
          · intro h
            rw [PyResult.returned.injEq] at h
            cases h
          · rintro ⟨r', hr', hs', hn', disj⟩
            injection hr' with hrr
            subst hrr
            rcases disj with ⟨hc1, hc2, hpath'⟩ | ⟨hm, hchal, hpath'⟩
            · have hcc := matchCC_eq_some.mpr ⟨hc1, hc2, hpath'⟩
              rw [e1] at hcc
              cases hcc
            · have hch := matchC_eq_some.mpr ⟨hchal, hpath'⟩
              rw [e2] at hch
              cases hch
    · rw [if_neg hok]
      constructor
      · intro h
        rw [PyResult.returned.injEq] at h
        cases h
      · rintro ⟨r', hr', hs', hn', -⟩
        injection hr' with hrr
        subst hrr
        exact absurd ⟨hs', hn'⟩ hok

theorem problemFromUrl_raised {s : List Char} :
    problemFromUrl s = .raised ↔ urlparse s = .raised := by
  unfold problemFromUrl
  cases urlparse s with
  | raised => exact ⟨fun _ => rfl, fun _ => rfl⟩
  | returned r =>
    simp only []
    constructor
    · intro h
      by_cases hok : schemeOk r.scheme ∧ netlocOk r.netloc
      · rw [if_pos hok] at h
        cases e1 : matchContestsChallenges (normpath r.path) with
        | some ab => obtain ⟨a, b⟩ := ab; rw [e1] at h; cases h
        | none =>
          rw [e1] at h
          cases e2 : matchChallenges (normpath r.path) with
          | some b => rw [e2] at h; cases h
          | none => rw [e2] at h; cases h
      · rw [if_neg hok] at h; cases h
    · intro h; cases h

theorem serviceFromUrl_char {s : List Char} :
    serviceFromUrl s = .returned (some ()) ↔
      ∃ r : ParseResult, urlparse s = .returned r ∧
        schemeOk r.scheme ∧ netlocOk r.netloc := by
  unfold serviceFromUrl
  cases urlparse s with
  | raised =>
    constructor
    · intro h; cases h
    · rintro ⟨r, hr, -⟩; cases hr
  | returned r =>
    simp only []
    by_cases hok : schemeOk r.scheme ∧ netlocOk r.netloc
    · rw [if_pos hok]
      exact ⟨fun _ => ⟨r, rfl, hok.1, hok.2⟩, fun _ => rfl⟩
    · rw [if_neg hok]
      constructor
      · intro h; rw [PyResult.returned.injEq] at h; cases h
      · rintro ⟨r', hr', hs', hn'⟩
        injection hr' with hrr
        subst hrr
        exact absurd ⟨hs', hn'⟩ hok

theorem serviceFromUrl_returns {s : List Char} {r : ParseResult}
    (h : urlparse s = .returned r) (hno : ¬(schemeOk r.scheme ∧ netlocOk r.netloc)) :
    serviceFromUrl s = .returned none := by
  unfold serviceFromUrl
  rw [h]
  simp only []
  rw [if_neg hno]

theorem serviceFromUrl_raised {s : List Char} :
    serviceFromUrl s = .raised ↔ urlparse s = .raised := by
  unfold serviceFromUrl
  cases urlparse s with
  | raised => exact ⟨fun _ => rfl, fun _ => rfl⟩
  | returned r =>
    simp only []
    constructor
    · intro h
      by_cases hok : schemeOk r.scheme ∧ netlocOk r.netloc
      · rw [if_pos hok] at h; cases h
      · rw [if_neg hok] at h; cases h
    · intro h; cases h

/-! Recognition of the canonical URLs built by `get_url`. -/

theorem fromUrl_short {b : List Char} (hb : IsSlug b) :
    problemFromUrl ("https://www.hackerrank.com/challenges/".data ++ b) =
      .returned (some ⟨"master".data, b⟩) := by
  apply problemFromUrl_char.mpr
  have hforall : ∀ c ∈ "challenges/".data ++ b, isSlugChar c = true ∨ c = '/' := by
    intro c hc
    rcases List.mem_append.mp hc with hl | hr
    · revert hl
      have : ∀ c ∈ "challenges/".data, isSlugChar c = true ∨ c = '/' := by decide
      exact this c
    · exact Or.inl (hb.2 c hr)
  refine ⟨⟨"https".data, "www.hackerrank.com".data, "/challenges/".data ++ b⟩,
      ?_, Or.inr (Or.inr rfl), Or.inr rfl, Or.inr ⟨rfl, hb, Or.inl ?_⟩⟩
  · exact urlparse_hackerrank hforall
  · exact normpath_challenges hb

theorem fromUrl_full {a b : List Char} (ha : IsSlug a) (hb : IsSlug b) :
    problemFromUrl
        ("https://www.hackerrank.com/contests/".data ++
          (a ++ ("/challenges/".data ++ b))) =
      .returned (some ⟨a, b⟩) := by
  apply problemFromUrl_char.mpr
  have hforall : ∀ c ∈ "contests/".data ++ (a ++ ("/challenges/".data ++ b)),
      isSlugChar c = true ∨ c = '/' := by
    intro c hc
    rcases List.mem_append.mp hc with hl | hr
    · revert hl
      have : ∀ c ∈ "contests/".data, isSlugChar c = true ∨ c = '/' := by decide
      exact this c
    · rcases List.mem_append.mp hr with hl2 | hr2
      · exact Or.inl (ha.2 c hl2)
      · rcases List.mem_append.mp hr2 with hl3 | hr3
        · revert hl3
          have : ∀ c ∈ "/challenges/".data, isSlugChar c = true ∨ c = '/' := by decide
          exact this c
        · exact Or.inl (hb.2 c hr3)
  refine ⟨⟨"https".data, "www.hackerrank.com".data,
      "/contests/".data ++ (a ++ ("/challenges/".data ++ b))⟩,
      ?_, Or.inr (Or.inr rfl), Or.inr rfl, Or.inl ⟨ha, hb, Or.inl ?_⟩⟩
  · exact urlparse_hackerrank hforall
  · exact normpath_contests ha hb

theorem fromUrl_getUrl {p : HackerRankProblem}
    (h : (IsSlug p.contest_slug ∧ IsSlug p.challenge_slug) ∨
         (p.contest_slug = "master".data ∧ IsSlug p.challenge_slug)) :
    problemFromUrl p.get_url = .returned (some p) := by
  have hch : IsSlug p.challenge_slug := by
    rcases h with ⟨-, hc⟩ | ⟨-, hc⟩ <;> exact hc
  by_cases hm : p.contest_slug = "master".data
  · unfold HackerRankProblem.get_url
    rw [if_pos hm, fromUrl_short hch, ← hm]
  · have hc : IsSlug p.contest_slug := by
      rcases h with ⟨hc, -⟩ | ⟨hm', -⟩
      · exact hc
      · exact absurd hm' hm
    unfold HackerRankProblem.get_url
    rw [if_neg hm]
    have e : "https://www.hackerrank.com/contests/".data ++ p.contest_slug ++
        "/challenges/".data ++ p.challenge_slug =
        "https://www.hackerrank.com/contests/".data ++
          (p.contest_slug ++ ("/challenges/".data ++ p.challenge_slug)) := by
      simp [List.append_assoc]
    rw [e, fromUrl_full hc hch]

/-! Sample download: lengths and indexed contents. -/

theorem download_success_eq (t : RunCodeTransport) (h1 : t.compile.status = true)
    (h2 : t.poll.status = true) :
    download_with_running_code t =
      (((t.poll.stdin.zip t.poll.expected_output).enum).map
          (fun p => ⟨⟨testcaseInputName p.1, textfile p.2.1⟩,
                     ⟨testcaseOutputName p.1, textfile p.2.2⟩⟩),
       [.getProblemPage, .postCompile, .getPoll]) := by
  unfold download_with_running_code
  rw [if_neg (by rw [h1]; exact fun hh => Bool.noConfusion hh),
      if_neg (by rw [h2]; exact fun hh => Bool.noConfusion hh)]

theorem download_length (t : RunCodeTransport) (h1 : t.compile.status = true)
    (h2 : t.poll.status = true) :
    (download_with_running_code t).1.length =
      min t.poll.stdin.length t.poll.expected_output.length := by
  rw [download_success_eq t h1 h2]
  simp [List.length_zip]

theorem download_get? (t : RunCodeTransport) (h1 : t.compile.status = true)
    (h2 : t.poll.status = true) (i : Nat) {x y : List Char}
    (hx : t.poll.stdin.get? i = some x) (hy : t.poll.expected_output.get? i = some y) :
    (download_with_running_code t).1.get? i =
      some ⟨⟨testcaseInputName i, textfile x⟩, ⟨testcaseOutputName i, textfile y⟩⟩ := by
  rw [download_success_eq t h1 h2]
  have hz : (t.poll.stdin.zip t.poll.expected_output).get? i = some (x, y) :=
    (List.get?_zip_eq_some ..).mpr ⟨hx, hy⟩
  simp only [List.get?_map, List.get?_enum, hz, Option.map_some']

/-! The submission URL. -/

theorem rstripSlash_slug {pre ch : List Char} (hch : IsSlug ch) :
    rstripSlash (pre ++ ch) = pre ++ ch := by
  unfold rstripSlash
  obtain ⟨c, cs, hrev⟩ : ∃ c cs, ch.reverse = c :: cs := by
    cases hr : ch.reverse with
    | nil => exact absurd (List.reverse_eq_nil_iff.mp hr) hch.1
    | cons c cs => exact ⟨c, cs, rfl⟩
  have hc : c ∈ ch := List.mem_reverse.mp (hrev ▸ List.mem_cons_self c cs)
  have hne : ¬((c == '/') = true) := by
    simp only [beq_iff_eq]
    exact (slugChar_ne (hch.2 c hc)).1
  rw [List.reverse_append, hrev, List.cons_append,
      List.dropWhile_cons_of_neg (p := fun x => x == '/') hne, ← List.cons_append,
      ← hrev, ← List.reverse_append, List.reverse_reverse]

theorem rstripSlash_getUrl {p : HackerRankProblem} (h : IsSlug p.challenge_slug) :
    rstripSlash p.get_url = p.get_url := by
  unfold HackerRankProblem.get_url
  split
  · exact rstripSlash_slug h
  · exact rstripSlash_slug h

/-! The claims. -/

/-- C1: for every URL string that `HackerRankProblem.from_url` recognises
(returning a problem), building the canonical URL with `get_url` and running
`from_url` on the result yields a problem with exactly the same contest and
challenge slugs — `get_url` is a right inverse of recognition on slugs. -/
theorem c1_get_url_right_inverse (s : List Char) (p : HackerRankProblem)
    (h : problemFromUrl s = .returned (some p)) :
    problemFromUrl p.get_url = .returned (some p) := by
  obtain ⟨r, -, -, -, disj⟩ := problemFromUrl_char.mp h
  apply fromUrl_getUrl
  rcases disj with ⟨hc, hch, -⟩ | ⟨hm, hch, -⟩
  · exact Or.inl ⟨hc, hch⟩
  · exact Or.inr ⟨hm, hch⟩

/-- Witness for C1 at a concrete recognised URL. -/
theorem c1_get_url_right_inverse_witness :
    problemFromUrl (HackerRankProblem.get_url ⟨"abc".data, "def".data⟩) =
      .returned (some ⟨"abc".data, "def".data⟩) :=
  c1_get_url_right_inverse
    "https://www.hackerrank.com/contests/abc/challenges/def".data
    ⟨"abc".data, "def".data⟩ (by decide)

/-- C2: `get_url` omits the `/contests/master/` segment exactly for contest
slug `master` and includes it for every other contest slug; the example URL
`https://www.hackerrank.com/challenges/fp-hello-world` is recognised as
`(master, fp-hello-world)`, whose canonical URL is the example URL again. -/
theorem c2_get_url_shapes :
    (∀ b : List Char, HackerRankProblem.get_url ⟨"master".data, b⟩ =
        "https://www.hackerrank.com/challenges/".data ++ b) ∧
    (∀ a b : List Char, a ≠ "master".data →
        HackerRankProblem.get_url ⟨a, b⟩ =
          "https://www.hackerrank.com/contests/".data ++ a ++
            "/challenges/".data ++ b) ∧
    problemFromUrl "https://www.hackerrank.com/challenges/fp-hello-world".data =
      .returned (some ⟨"master".data, "fp-hello-world".data⟩) ∧
    HackerRankProblem.get_url ⟨"master".data, "fp-hello-world".data⟩ =
      "https://www.hackerrank.com/challenges/fp-hello-world".data := by
  refine ⟨fun b => ?_, fun a b ha => ?_, by decide, rfl⟩
  · unfold HackerRankProblem.get_url
    rw [if_pos rfl]
  · unfold HackerRankProblem.get_url
    rw [if_neg ha]

/-- Witness for C2 instantiating the non-`master` branch. -/
theorem c2_get_url_shapes_witness :
    HackerRankProblem.get_url ⟨"abc".data, "def".data⟩ =
      "https://www.hackerrank.com/contests/".data ++ "abc".data ++
        "/challenges/".data ++ "def".data :=
  c2_get_url_shapes.2.1 "abc".data "def".data (by decide)

/-- C3: `HackerRankProblem.from_url` recognises exactly the strings whose
scheme is empty, `http` or `https`, whose host is `hackerrank.com` or
`www.hackerrank.com`, and whose normalised path is matched by
`/contests/<slug>/challenges/<slug>` (yielding that slug pair) or
`/challenges/<slug>` (yielding contest slug `master`), slugs being nonempty
strings over `[0-9A-Za-z-]`; per the semantics of the regex anchor `$`, the
path may also carry one trailing newline after the matched shape.  The
example URL with contest `abc` and challenge `def` yields exactly those
slugs, and a trailing newline is accepted. -/
theorem c3_recognition_characterization :
    (∀ (s : List Char) (p : HackerRankProblem),
        problemFromUrl s = .returned (some p) ↔
          ∃ r : ParseResult, urlparse s = .returned r ∧
            schemeOk r.scheme ∧ netlocOk r.netloc ∧
            ((IsSlug p.contest_slug ∧ IsSlug p.challenge_slug ∧
                (normpath r.path = "/contests/".data ++
                    (p.contest_slug ++ ("/challenges/".data ++ p.challenge_slug)) ∨
                  normpath r.path = "/contests/".data ++
                    (p.contest_slug ++ ("/challenges/".data ++
                      (p.challenge_slug ++ ['\n']))))) ∨
              (p.contest_slug = "master".data ∧ IsSlug p.challenge_slug ∧
                (normpath r.path = "/challenges/".data ++ p.challenge_slug ∨
                  normpath r.path =
                    "/challenges/".data ++ (p.challenge_slug ++ ['\n']))))) ∧
    problemFromUrl "https://www.hackerrank.com/contests/abc/challenges/def".data =
      .returned (some ⟨"abc".data, "def".data⟩) ∧
    problemFromUrl "https://www.hackerrank.com/challenges/abc\n".data =
      .returned (some ⟨"master".data, "abc".data⟩) :=
  ⟨fun _ _ => problemFromUrl_char, by decide, by decide⟩

/-- C4 counterexample: on the input `http://[` the recogniser does not return
no-match — the `ValueError` of `urllib.parse.urlparse` (raised on an
authority containing `[` without `]`) propagates, so `from_url` is not total. -/
theorem c4_totality_counterexample :
    problemFromUrl "http://[".data = .raised := by decide

/-- C4 (amended): `from_url` raises exactly when `urlparse` raises (an
authority with `[` but no `]` or vice versa); on every input that `urlparse`
parses, `from_url` returns a value — `some` problem or no-match — and never
fails. -/
theorem c4_totality_amended :
    ∀ s : List Char, (problemFromUrl s = .raised ↔ urlparse s = .raised) ∧
      ∀ r : ParseResult, urlparse s = .returned r →
        ∃ v, problemFromUrl s = .returned v := by
  intro s
  refine ⟨problemFromUrl_raised, fun r hr => ?_⟩
  cases hp : problemFromUrl s with
  | raised =>
    rw [problemFromUrl_raised.mp hp] at hr
    cases hr
  | returned v => exact ⟨v, rfl⟩

/-- Witness for C4 (amended) at a concrete non-conforming input. -/
theorem c4_totality_amended_witness :
    ∃ v, problemFromUrl "x".data = .returned v :=
  (c4_totality_amended "x".data).2 ⟨[], [], "x".data⟩ (by decide)

/-- C5: if the compile POST reports `status` false, the result is the empty
list and no poll GET is performed; if the compile POST succeeds but the poll
reports `status` false, the result is likewise the empty list. -/
theorem c5_failure_paths (t : RunCodeTransport) :
    (t.compile.status = false →
      download_with_running_code t = ([], [.getProblemPage, .postCompile]) ∧
        HttpReq.getPoll ∉ (download_with_running_code t).2) ∧
    (t.compile.status = true → t.poll.status = false →
      (download_with_running_code t).1 = []) := by
  constructor
  · intro h
    have e : download_with_running_code t = ([], [.getProblemPage, .postCompile]) := by
      unfold download_with_running_code
      rw [if_pos h]
    refine ⟨e, ?_⟩
    rw [e]
    decide
  · intro h1 h2
    unfold download_with_running_code
    rw [if_neg (by rw [h1]; exact fun hh => Bool.noConfusion hh), if_pos h2]

/-- Witness for C5 at concrete failing transports. -/
theorem c5_failure_paths_witness :
    (download_with_running_code ⟨⟨false, 0⟩, ⟨true, [], []⟩⟩ =
        ([], [.getProblemPage, .postCompile]) ∧
      HttpReq.getPoll ∉ (download_with_running_code ⟨⟨false, 0⟩, ⟨true, [], []⟩⟩).2) ∧
    (download_with_running_code ⟨⟨true, 0⟩, ⟨false, [], []⟩⟩).1 = [] :=
  ⟨(c5_failure_paths _).1 rfl, (c5_failure_paths _).2 rfl rfl⟩

/-- C6: when compile and poll both succeed and the `stdin` and
`expected_output` arrays have the same length `n`, the result has exactly `n`
test cases, and the `i`-th pairs the `i`-th stdin labeled
`Testcase i Input` with the `i`-th expected output labeled
`Testcase i Expected Output`. -/
theorem c6_success_zip (t : RunCodeTransport) (n : Nat)
    (h1 : t.compile.status = true) (h2 : t.poll.status = true)
    (hs : t.poll.stdin.length = n) (he : t.poll.expected_output.length = n) :
    (download_with_running_code t).1.length = n ∧
    ∀ i x y, t.poll.stdin.get? i = some x →
      t.poll.expected_output.get? i = some y →
      (download_with_running_code t).1.get? i =
        some ⟨⟨testcaseInputName i, textfile x⟩,
              ⟨testcaseOutputName i, textfile y⟩⟩ := by
  refine ⟨?_, fun i x y hx hy => download_get? t h1 h2 i hx hy⟩
  rw [download_length t h1 h2, hs, he, min_self]

/-- Witness for C6 with a length-one transport. -/
theorem c6_success_zip_witness :
    (download_with_running_code ⟨⟨true, 7⟩, ⟨true, ["ab".data], ["cd".data]⟩⟩).1.length = 1 ∧
    (download_with_running_code ⟨⟨true, 7⟩, ⟨true, ["ab".data], ["cd".data]⟩⟩).1.get? 0 =
      some ⟨⟨testcaseInputName 0, textfile "ab".data⟩,
            ⟨testcaseOutputName 0, textfile "cd".data⟩⟩ :=
  ⟨(c6_success_zip ⟨⟨true, 7⟩, ⟨true, ["ab".data], ["cd".data]⟩⟩ 1 rfl rfl rfl rfl).1,
   (c6_success_zip ⟨⟨true, 7⟩, ⟨true, ["ab".data], ["cd".data]⟩⟩ 1 rfl rfl rfl rfl).2
     0 "ab".data "cd".data rfl rfl⟩

/-- C7: `login` returns true with zero credential-callback invocations when
the initial GET ends at a different URL; otherwise it invokes the callback
once, posts the form, and (when the POST passes `raise_for_status`) returns
false exactly when the post-submit URL contains `/auth` and true otherwise. -/
theorem c7_login (t : LoginTransport) :
    (t.getResultUrl ≠ authLoginUrl → login t = (.returned true, 0)) ∧
    (t.getResultUrl = authLoginUrl → t.postOk = true →
      (login t = (.returned false, 1) ↔
          occursIn "/auth".data t.postResultUrl = true) ∧
        (login t = (.returned true, 1) ↔
          occursIn "/auth".data t.postResultUrl = false)) := by
  constructor
  · intro h
    unfold login
    rw [if_pos h]
  · intro h1 h2
    unfold login
    rw [if_neg (not_not_intro h1),
        if_neg (by rw [h2]; exact fun hh => Bool.noConfusion hh)]
    by_cases ho : occursIn "/auth".data t.postResultUrl = true
    · rw [if_pos ho]
      simp [ho]
    · rw [if_neg ho]
      simp only [Bool.not_eq_true] at ho
      simp [ho]

/-- Witness for C7: a redirected GET and a failed login POST. -/
theorem c7_login_witness :
    login ⟨"https://www.hackerrank.com/dashboard".data, true, []⟩ =
        (.returned true, 0) ∧
    login ⟨authLoginUrl, true, "https://www.hackerrank.com/auth/login".data⟩ =
        (.returned false, 1) :=
  ⟨(c7_login _).1 (by decide),
   ((c7_login _).2 rfl rfl).1.mpr (by decide)⟩

/-- C8: `submit` raises the dedicated `SubmissionError` exactly on a response
with `status` false, and on success returns a submission handle whose URL is
the problem's canonical URL followed by `/submissions/code/<id>`. -/
theorem c8_submit (p : HackerRankProblem) (r : SubmitResponse) :
    (r.status = false → submit p r = .raised) ∧
    (r.status = true → IsSlug p.challenge_slug →
      submit p r = .returned ⟨p.get_url ++
        ("/submissions/code/".data ++ (Nat.repr r.id).data), p⟩) := by
  constructor
  · intro h
    unfold submit
    rw [if_pos h]
  · intro h1 h2
    unfold submit
    rw [if_neg (by rw [h1]; exact fun hh => Bool.noConfusion hh),
        rstripSlash_getUrl h2]

/-- Witness for C8 at a concrete problem and both response kinds. -/
theorem c8_submit_witness :
    submit ⟨"abc".data, "def".data⟩ ⟨false, 5⟩ = .raised ∧
    submit ⟨"abc".data, "def".data⟩ ⟨true, 5⟩ =
      .returned ⟨HackerRankProblem.get_url ⟨"abc".data, "def".data⟩ ++
        ("/submissions/code/".data ++ (Nat.repr 5).data),
        ⟨"abc".data, "def".data⟩⟩ :=
  ⟨(c8_submit _ _).1 rfl, (c8_submit _ _).2 rfl (by decide)⟩

/-- C9: when both requests succeed but `stdin` and `expected_output` have
different lengths `m` and `n`, the result has exactly `min m n` test cases —
the extra elements of the longer array are silently dropped. -/
theorem c9_mismatched_lengths (t : RunCodeTransport)
    (h1 : t.compile.status = true) (h2 : t.poll.status = true)
    (hne : t.poll.stdin.length ≠ t.poll.expected_output.length) :
    (download_with_running_code t).1.length =
      min t.poll.stdin.length t.poll.expected_output.length :=
  download_length t h1 h2

/-- Witness for C9 with arrays of lengths 2 and 1. -/
theorem c9_mismatched_lengths_witness :
    (download_with_running_code
        ⟨⟨true, 0⟩, ⟨true, ["a".data, "b".data], ["c".data]⟩⟩).1.length =
      min 2 1 :=
  c9_mismatched_lengths ⟨⟨true, 0⟩, ⟨true, ["a".data, "b".data], ["c".data]⟩⟩
    rfl rfl (by decide)

/-- C10 counterexample: `HackerRankService.from_url` does not return `None`
on every non-matching string — on `https://]` the `ValueError` of
`urllib.parse.urlparse` propagates. -/
theorem c10_service_counterexample :
    serviceFromUrl "https://]".data = .raised := by decide

/-- C10 (amended): `HackerRankService.from_url` ignores the URL's path
entirely — on every string that `urlparse` parses it returns the singleton
service exactly when the scheme is empty, `http` or `https` and the host is
`hackerrank.com` or `www.hackerrank.com`, whatever the path, and `None`
otherwise; on a string whose authority has `[` without `]` or vice versa the
`ValueError` of `urlparse` propagates. -/
theorem c10_service_amended :
    ∀ s : List Char, (serviceFromUrl s = .raised ↔ urlparse s = .raised) ∧
      ∀ r : ParseResult, urlparse s = .returned r →
        (serviceFromUrl s = .returned (some ()) ↔
          schemeOk r.scheme ∧ netlocOk r.netloc) ∧
        (¬(schemeOk r.scheme ∧ netlocOk r.netloc) →
          serviceFromUrl s = .returned none) := by
  intro s
  refine ⟨serviceFromUrl_raised, fun r hr =>
    ⟨⟨?_, fun hok => serviceFromUrl_char.mpr ⟨r, hr, hok.1, hok.2⟩⟩,
     fun hno => serviceFromUrl_returns hr hno⟩⟩
  intro h
  obtain ⟨r', hr', hs', hn'⟩ := serviceFromUrl_char.mp h
  rw [hr] at hr'
  injection hr' with hh
  subst hh
  exact ⟨hs', hn'⟩

/-- Witness for C10 (amended): a hackerrank URL whose path names no resource
still yields the service. -/
theorem c10_service_amended_witness :
    serviceFromUrl "https://www.hackerrank.com/this/names/no/resource".data =
      .returned (some ()) :=
  ((c10_service_amended
      "https://www.hackerrank.com/this/names/no/resource".data).2
    ⟨"https".data, "www.hackerrank.com".data, "/this/names/no/resource".data⟩
    (by decide)).1.mpr (by decide)

end HackerRank
